import Mathlib

/-!
Shallow embedding of the `baffa` byte-buffer crate (files `src/stack.rs`,
`src/lib.rs`, `src/iter.rs`).

Machine bytes are modelled as `Nat`; raw memory regions are modelled as total
functions `Nat → Nat` (an index below the capacity is a physical byte of the
backing storage; values at other indices stand for memory outside the buffer
and must never be modified by buffer operations). Caller-supplied source and
destination pointers are likewise modelled as `Nat → Nat` functions.
Cursors are `Nat`; the crate's `usize` cursors only ever grow by amounts the
claims keep far below `2^64`, and `wrapping_add` coincides with `+` there.
Rust's truncating `usize` subtraction appears as Nat subtraction.
-/

namespace Baffa

/-- Embeds `stack::Buffer<S>`: fixed storage of `cap` bytes plus the `cursor`
(number of bytes written). `data` is the physical backing storage. -/
structure Buffer where
  cap : Nat
  data : Nat → Nat
  cursor : Nat

/-- Embeds `Buffer::remaining` (also `WriteBuf::remaining` for `Buffer`). -/
def Buffer.remaining (b : Buffer) : Nat := b.cap - b.cursor

/-- Embeds `Buffer::len` / `Buf::len`. -/
def Buffer.len (b : Buffer) : Nat := b.cursor

/-- Embeds `ReadBuf::available` default implementation: the length. -/
def Buffer.available (b : Buffer) : Nat := b.len

/-- Embeds `<Buffer as WriteBuf>::advance`: `set_len(cursor + step)`. -/
def Buffer.advance (b : Buffer) (step : Nat) : Buffer :=
  { b with cursor := b.cursor + step }

/-- Embeds `<Buffer as WriteBuf>::write`: `copy_nonoverlapping` of `size` bytes from
`src` to physical offset `cursor`, then `advance(size)`. -/
def Buffer.write (b : Buffer) (src : Nat → Nat) (size : Nat) : Buffer :=
  Buffer.advance
    { b with data := fun i =>
        if b.cursor ≤ i ∧ i < b.cursor + size then src (i - b.cursor) else b.data i }
    size

/-- Embeds `<Buffer as ReadBuf>::consume`: early return on `step == 0`; otherwise the
suffix `[step, cursor)` is moved to offset `0` when non-empty and the length
becomes `cursor - step` (saturating, as `usize::saturating_sub`). -/
def Buffer.consume (b : Buffer) (step : Nat) : Buffer :=
  if step = 0 then b
  else
    let rem := b.cursor - step
    if rem ≠ 0 then
      { b with data := fun i => if i < rem then b.data (i + step) else b.data i,
               cursor := rem }
    else
      { b with cursor := rem }

/-- Embeds `<Buffer as ReadBuf>::read`: copy `size` bytes from the start of the
storage into the destination, then `consume(size)`. Returns the updated
destination memory and the updated buffer. -/
def Buffer.readInto (b : Buffer) (dst : Nat → Nat) (size : Nat) : (Nat → Nat) × Buffer :=
  (fun i => if i < size then b.data i else dst i, b.consume size)

/-- Embeds `ReadBuf::read_slice` default implementation: clamps the reported count to
`min(dst.len, available)` but passes `dst.len` to the raw `read`. Returns
(reported count, destination memory, buffer). -/
def Buffer.readSlice (b : Buffer) (dst : Nat → Nat) (dstLen : Nat) :
    Nat × (Nat → Nat) × Buffer :=
  let readLen := min dstLen b.available
  if 0 < readLen then
    let r := b.readInto dst dstLen
    (readLen, r.1, r.2)
  else
    (readLen, dst, b)

/-- Embeds `WriteBuf::write_slice` default implementation: clamps to
`min(src.len, remaining)` and passes the clamped count to the raw `write`. -/
def Buffer.writeSlice (b : Buffer) (src : Nat → Nat) (srcLen : Nat) : Nat × Buffer :=
  let writeLen := min srcLen b.remaining
  if 0 < writeLen then (writeLen, b.write src writeLen) else (writeLen, b)

/-- Embeds `WriteBufExt::write_value` for `Buffer`; `size` stands for `sizeof(T)`. -/
def Buffer.writeValue (b : Buffer) (src : Nat → Nat) (size : Nat) : Nat × Buffer :=
  if size ≠ 0 ∧ size ≤ b.remaining then (size, b.write src size) else (0, b)

/-- Embeds `stack::Ring<S>`: a `Buffer` (`cap`, `data`, write cursor `cursor`) plus
the read cursor `read`. Both cursors are unbounded. -/
structure Ring where
  cap : Nat
  data : Nat → Nat
  cursor : Nat
  read : Nat

/-- Embeds `Ring::mask_idx`: `idx & (capacity - 1)`. -/
def Ring.maskIdx (r : Ring) (idx : Nat) : Nat := idx &&& (r.cap - 1)

/-- Embeds `Ring::len`: `cursor - read` (truncating, as in release-mode `usize`). -/
def Ring.len (r : Ring) : Nat := r.cursor - r.read

/-- Embeds `<Ring as ReadBuf>::available`: the length. -/
def Ring.available (r : Ring) : Nat := r.len

/-- Embeds `<Ring as WriteBuf>::remaining`: always the capacity. -/
def Ring.remaining (r : Ring) : Nat := r.cap

/-- Embeds `<Ring as ops::Index>::index`: byte at masked `read + index`. -/
def Ring.idx (r : Ring) (i : Nat) : Nat := r.data (r.maskIdx (r.read + i))

/-- Embeds `<Ring as ReadBuf>::consume`: `read += step`. -/
def Ring.consume (r : Ring) (step : Nat) : Ring :=
  { r with read := r.read + step }

/-- Embeds `<Ring as WriteBuf>::advance`: `cursor += step`; then if the gap
`cursor - read` exceeds the capacity, the excess is consumed. -/
def Ring.advance (r : Ring) (step : Nat) : Ring :=
  let r1 : Ring := { r with cursor := r.cursor + step }
  let readSpan := r1.cursor - r1.read
  if r1.cap < readSpan then r1.consume (readSpan - r1.cap) else r1

/-- The `while size > 0` loop of `<Ring as WriteBuf>::write`: each iteration
copies `min(size, cap)` source bytes (starting at source offset `writeSpan`)
to physical offset `0`. When `cap = 0` the Rust loop never terminates; the
embedding returns then (that case is unreachable under the crate's
power-of-two capacity precondition). Returns final storage and `writeSpan`. -/
def ringWriteLoop (cap : Nat) (data src : Nat → Nat) (writeSpan size : Nat) :
    (Nat → Nat) × Nat :=
  if h : 0 < size then
    let availSize := min size cap
    let data1 : Nat → Nat := fun i => if i < availSize then src (writeSpan + i) else data i
    if h2 : 0 < availSize then
      ringWriteLoop cap data1 src (writeSpan + availSize) (size - availSize)
    else
      (data1, writeSpan)
  else
    (data, writeSpan)
  termination_by size
  decreasing_by omega

/-- Embeds `<Ring as WriteBuf>::write`: first span `min(cap - masked cursor, size)`
at the masked cursor, then the wrap loop, then `advance` by the total. -/
def Ring.write (r : Ring) (src : Nat → Nat) (size : Nat) : Ring :=
  let cursor := r.maskIdx r.cursor
  let writeSpan := min (r.cap - cursor) size
  let data1 : Nat → Nat := fun i =>
    if cursor ≤ i ∧ i < cursor + writeSpan then src (i - cursor) else r.data i
  let rest := ringWriteLoop r.cap data1 src writeSpan (size - writeSpan)
  Ring.advance { r with data := rest.1 } rest.2

/-- Embeds `<Ring as ReadBuf>::read`: first span `min(cap - masked read, size)` from
the masked read cursor, consume it, then a second span from physical offset
`0` clamped by the remaining availability. -/
def Ring.readInto (r : Ring) (dst : Nat → Nat) (size : Nat) : (Nat → Nat) × Ring :=
  let idx := r.maskIdx r.read
  let readSpan := min (r.cap - idx) size
  let dst1 : Nat → Nat := fun i => if i < readSpan then r.data (idx + i) else dst i
  let r1 := r.consume readSpan
  let size1 := size - readSpan
  if 0 < size1 then
    let availSize := min size1 r1.available
    if 0 < availSize then
      (fun i => if readSpan ≤ i ∧ i < readSpan + availSize then r1.data (i - readSpan) else dst1 i,
       r1.consume availSize)
    else
      (dst1, r1)
  else
    (dst1, r1)

/-- Embeds `ReadBuf::read_slice` default implementation, for `Ring`. -/
def Ring.readSlice (r : Ring) (dst : Nat → Nat) (dstLen : Nat) :
    Nat × (Nat → Nat) × Ring :=
  let readLen := min dstLen r.available
  if 0 < readLen then
    let x := r.readInto dst dstLen
    (readLen, x.1, x.2)
  else
    (readLen, dst, r)

/-- Embeds `WriteBuf::write_slice` default implementation, for `Ring`. -/
def Ring.writeSlice (r : Ring) (src : Nat → Nat) (srcLen : Nat) : Nat × Ring :=
  let writeLen := min srcLen r.remaining
  if 0 < writeLen then (writeLen, r.write src writeLen) else (writeLen, r)

/-- Embeds `WriteBufExt::write_value` for `Ring`; `size` stands for `sizeof(T)`. -/
def Ring.writeValue (r : Ring) (src : Nat → Nat) (size : Nat) : Nat × Ring :=
  if size ≠ 0 ∧ size ≤ r.remaining then (size, r.write src size) else (0, r)

/-- Embeds `Buffer::into_circular`: `Ring::from_parts(buffer, 0)`. -/
def Buffer.intoCircular (b : Buffer) : Ring :=
  { cap := b.cap, data := b.data, cursor := b.cursor, read := 0 }

/-- Embeds `iter::Iter` / `iter::IterMut` cursor state (the borrowed buffer is kept
outside the state; `next`/`next_back` report which index they access). -/
structure Iter where
  cursor : Nat
  len : Nat
  deriving DecidableEq

/-- Embeds `Iter::new(inner, from, to)`. -/
def Iter.new (start stop : Nat) : Iter := { cursor := start, len := stop }

/-- Embeds `<Iter as Iterator>::next`: yields the index accessed and the new state. -/
def Iter.next (it : Iter) : Option (Nat × Iter) :=
  if it.cursor ≠ it.len then
    some (it.cursor, { it with cursor := it.cursor + 1 })
  else
    none

/-- Embeds `<Iter as DoubleEndedIterator>::next_back`: `idx = self.len` is taken
before the decrement, exactly as in the source. -/
def Iter.nextBack (it : Iter) : Option (Nat × Iter) :=
  if it.cursor ≠ it.len then
    some (it.len, { it with len := it.len - 1 })
  else
    none

end Baffa

namespace Baffa

/-- C6: for every Stack buffer with readable content `b[0..L)` and every
`step ≤ L`, `consume(step)` leaves `len() = L - step` and readable content
exactly `b[step..L)` shifted to offset 0. -/
theorem c6_stack_consume_shifts (b : Buffer) (step : Nat) (hstep : step ≤ b.len) :
    (b.consume step).len = b.len - step ∧
    ∀ i < b.len - step, (b.consume step).data i = b.data (step + i) := by
  unfold Buffer.consume Buffer.len at *
  by_cases h0 : step = 0
  · subst h0
    simp
  · rw [if_neg h0]
    by_cases hrem : b.cursor - step ≠ 0
    · rw [if_pos hrem]
      refine ⟨rfl, ?_⟩
      intro i hi
      simp only
      rw [if_pos hi, Nat.add_comm]
    · rw [if_neg hrem]
      refine ⟨rfl, ?_⟩
      intro i hi
      omega

/-- Witness for C6: writing `[1,2,3,4]` then consuming 1 leaves `[2,3,4]`. -/
theorem c6_stack_consume_shifts_witness :
    ((⟨8, fun i => i + 1, 4⟩ : Buffer).consume 1).len = (⟨8, fun i => i + 1, 4⟩ : Buffer).len - 1 ∧
    ∀ i < (⟨8, fun i => i + 1, 4⟩ : Buffer).len - 1,
      ((⟨8, fun i => i + 1, 4⟩ : Buffer).consume 1).data i =
        (⟨8, fun i => i + 1, 4⟩ : Buffer).data (1 + i) :=
  c6_stack_consume_shifts ⟨8, fun i => i + 1, 4⟩ 1 (by decide)

/-- C10: a Stack write of `size ≤ remaining()` leaves the bytes at indices
`[0, len)` unchanged, the capacity unchanged, and the length `len + size`. -/
theorem c10_stack_write_frame (b : Buffer) (src : Nat → Nat) (size : Nat)
    (hsize : size ≤ b.remaining) :
    (b.write src size).cap = b.cap ∧
    (b.write src size).len = b.len + size ∧
    ∀ i < b.len, (b.write src size).data i = b.data i := by
  refine ⟨rfl, rfl, ?_⟩
  intro i hi
  unfold Buffer.write Buffer.advance
  simp only
  rw [if_neg]
  unfold Buffer.len at hi
  omega

/-- Witness for C10 at a concrete buffer. -/
theorem c10_stack_write_frame_witness :
    (((⟨8, fun _ => 3, 2⟩ : Buffer)).write (fun _ => 7) 4).cap = (⟨8, fun _ => 3, 2⟩ : Buffer).cap ∧
    (((⟨8, fun _ => 3, 2⟩ : Buffer)).write (fun _ => 7) 4).len = (⟨8, fun _ => 3, 2⟩ : Buffer).len + 4 ∧
    ∀ i < (⟨8, fun _ => 3, 2⟩ : Buffer).len,
      (((⟨8, fun _ => 3, 2⟩ : Buffer)).write (fun _ => 7) 4).data i =
        (⟨8, fun _ => 3, 2⟩ : Buffer).data i :=
  c10_stack_write_frame ⟨8, fun _ => 3, 2⟩ (fun _ => 7) 4 (by decide)

/-- C2: `read_slice` on a Stack buffer holding 2 bytes (physical garbage 9
beyond the cursor) with a 4-byte destination reports 2 bytes read, yet the
raw `read` is invoked with the full destination length: destination index 2
receives the garbage byte 9 instead of staying untouched (0), contradicting
the clamp the claim (and the raw `read`'s own documentation) states. -/
theorem c2_read_slice_overcopies :
    let b : Buffer := (Buffer.writeSlice ⟨8, fun _ => 9, 0⟩ (fun _ => 5) 2).2
    let res := b.readSlice (fun _ => 0) 4
    res.1 = 2 ∧ res.2.1 1 = 5 ∧ res.2.1 2 = 9 ∧ res.2.1 3 = 9 ∧ res.2.2.len = 0 := by
  decide

/-- C9: `next_back` of an iterator over `[0, 4)` accesses index `4` — the
excluded upper bound `to` — because the source reads `self.inner[self.len]`
before decrementing `self.len`; the claim requires every accessed index to
lie inside `[from, to)`. -/
theorem c9_next_back_accesses_upper_bound :
    (Iter.new 0 4).nextBack = some (4, Iter.new 0 3) ∧ ¬ (4 < 4) := by
  decide

end Baffa

namespace Baffa

/-- One full unfolding of the wrap loop at `size = 0`: the loop body never
runs. -/
theorem ringWriteLoop_zero (cap : Nat) (data src : Nat → Nat) (ws : Nat) :
    ringWriteLoop cap data src ws 0 = (data, ws) := by
  rw [ringWriteLoop]
  simp

/-- The wrap loop with `0 < size ≤ cap` runs exactly one iteration, copying
`size` source bytes (from source offset `ws`) to physical offset 0. -/
theorem ringWriteLoop_small (cap : Nat) (data src : Nat → Nat) (ws size : Nat)
    (h1 : 0 < size) (h2 : size ≤ cap) :
    ringWriteLoop cap data src ws size =
      (fun i => if i < size then src (ws + i) else data i, ws + size) := by
  rw [ringWriteLoop, dif_pos h1]
  simp only [Nat.min_eq_left h2, dif_pos h1, Nat.sub_self, ringWriteLoop_zero]

/-- Masking with `capacity - 1` is reduction modulo the capacity when the
capacity is a power of two. -/
theorem Ring.maskIdx_eq_mod (r : Ring) (k : Nat) (hk : r.cap = 2 ^ k) (x : Nat) :
    r.maskIdx x = x % r.cap := by
  unfold Ring.maskIdx
  rw [hk]
  exact Nat.and_pow_two_sub_one_eq_mod x k

/-- C1 counterexample: for the capacity-8 Ring, after writing 8 bytes `0xFF`
and then 4 bytes `0x00`, the logical byte at index 0 (the first readable
byte, counted from the read cursor) is `0xFF`, not `0x00` as the claim
states for indices `[0..4)` — the oldest surviving bytes come first. -/
theorem c1_ring_overwrite_counterexample :
    let r0 : Ring := ⟨8, fun _ => 37, 0, 0⟩
    let r2 := (r0.write (fun _ => 255) 8).write (fun _ => 0) 4
    r2.available = 8 ∧ r2.idx 0 = 255 ∧ ¬ (r2.idx 0 = 0) := by
  have hmask : ∀ x : Nat, x &&& 7 = x % 8 := by
    intro x
    have := Nat.and_pow_two_sub_one_eq_mod x 3
    norm_num at this
    exact this
  simp [Ring.write, Ring.advance, Ring.consume, Ring.available, Ring.len, Ring.maskIdx,
    Ring.idx, ringWriteLoop_zero, hmask]

/-- C1 amended: for a Ring of capacity 8, starting empty, writing 8 bytes
`0xFF` then 4 bytes `0x00` leaves `available() = 8`, with the logical bytes
at indices `[0..4)` equal to `0xFF` (the oldest surviving bytes) and the
logical bytes at indices `[4..8)` equal to `0x00` (the just-written bytes,
which physically overwrote the oldest four). -/
theorem c1_ring_overwrite_amended :
    let r0 : Ring := ⟨8, fun _ => 37, 0, 0⟩
    let r2 := (r0.write (fun _ => 255) 8).write (fun _ => 0) 4
    r2.available = 8 ∧
    r2.idx 0 = 255 ∧ r2.idx 1 = 255 ∧ r2.idx 2 = 255 ∧ r2.idx 3 = 255 ∧
    r2.idx 4 = 0 ∧ r2.idx 5 = 0 ∧ r2.idx 6 = 0 ∧ r2.idx 7 = 0 := by
  have hmask : ∀ x : Nat, x &&& 7 = x % 8 := by
    intro x
    have := Nat.and_pow_two_sub_one_eq_mod x 3
    norm_num at this
    exact this
  simp [Ring.write, Ring.advance, Ring.consume, Ring.available, Ring.len, Ring.maskIdx,
    Ring.idx, ringWriteLoop_zero, hmask]

/-- C8: `write_value` (modelled with `size = sizeof(T)`) returns 0 and leaves
the buffer completely unchanged when `size = 0` or `remaining() < size`;
otherwise it performs the raw bit-copying `write` of `size` bytes and
returns `size` — for both the Stack buffer and the Ring. -/
theorem c8_write_value_no_op_or_copy :
    (∀ (b : Buffer) (src : Nat → Nat) (size : Nat),
      (size = 0 ∨ b.remaining < size → b.writeValue src size = (0, b)) ∧
      (size ≠ 0 → size ≤ b.remaining →
        b.writeValue src size = (size, b.write src size) ∧
        ∀ i < size, (b.writeValue src size).2.data (b.cursor + i) = src i)) ∧
    (∀ (r : Ring) (src : Nat → Nat) (size : Nat),
      (size = 0 ∨ r.remaining < size → r.writeValue src size = (0, r)) ∧
      (size ≠ 0 → size ≤ r.remaining → r.writeValue src size = (size, r.write src size))) := by
  constructor
  · intro b src size
    constructor
    · intro h
      unfold Buffer.writeValue
      rw [if_neg]
      omega
    · intro h1 h2
      unfold Buffer.writeValue
      rw [if_pos ⟨h1, h2⟩]
      refine ⟨rfl, ?_⟩
      intro i hi
      show (b.write src size).data (b.cursor + i) = src i
      unfold Buffer.write Buffer.advance
      simp only
      rw [if_pos (show b.cursor ≤ b.cursor + i ∧ b.cursor + i < b.cursor + size by omega)]
      congr 1
      omega
  · intro r src size
    constructor
    · intro h
      unfold Ring.writeValue
      rw [if_neg]
      omega
    · intro h1 h2
      unfold Ring.writeValue
      rw [if_pos ⟨h1, h2⟩]

/-- Witness for C8: both branches exercised at concrete inputs. -/
theorem c8_write_value_no_op_or_copy_witness :
    (⟨8, fun _ => 0, 6⟩ : Buffer).writeValue (fun _ => 1) 4 = (0, (⟨8, fun _ => 0, 6⟩ : Buffer)) ∧
    (⟨4, fun _ => 0, 0, 0⟩ : Ring).writeValue (fun _ => 1) 4 =
      (4, (⟨4, fun _ => 0, 0, 0⟩ : Ring).write (fun _ => 1) 4) :=
  ⟨(c8_write_value_no_op_or_copy.1 ⟨8, fun _ => 0, 6⟩ (fun _ => 1) 4).1 (Or.inr (by decide)),
   ((c8_write_value_no_op_or_copy.2 ⟨4, fun _ => 0, 0, 0⟩ (fun _ => 1) 4).2
      (by decide) (by decide))⟩

end Baffa

namespace Baffa

/-- One iteration of the wrap loop when it runs (`0 < size` and a non-zero
chunk is taken). -/
theorem ringWriteLoop_step (cap : Nat) (data src : Nat → Nat) (ws size : Nat)
    (h : 0 < size) (h2 : 0 < min size cap) :
    ringWriteLoop cap data src ws size =
      ringWriteLoop cap (fun i => if i < min size cap then src (ws + i) else data i) src
        (ws + min size cap) (size - min size cap) := by
  rw [ringWriteLoop, dif_pos h]
  simp only [dif_pos h2]

/-- The wrap loop adds exactly `size` to the running `writeSpan`. -/
theorem ringWriteLoop_snd (cap : Nat) (hcap : 0 < cap) (src : Nat → Nat) :
    ∀ (size : Nat) (data : Nat → Nat) (ws : Nat),
      (ringWriteLoop cap data src ws size).2 = ws + size := by
  intro size
  induction size using Nat.strong_induction_on with
  | _ size IH =>
    intro data ws
    by_cases h : 0 < size
    · rw [ringWriteLoop_step cap data src ws size h (by omega)]
      rw [IH _ (by omega)]
      omega
    · have hz : size = 0 := by omega
      subst hz
      rw [ringWriteLoop_zero]
      rfl

/-- Final storage of the wrap loop: position `p < cap` holds the source byte
of the last chunk that covered it (source offset
`ws + cap * ((size - 1 - p) / cap) + p`); positions `p ≥ size` or `p ≥ cap`
are untouched. -/
theorem ringWriteLoop_fst (cap : Nat) (hcap : 0 < cap) (src : Nat → Nat) :
    ∀ (size : Nat) (data : Nat → Nat) (ws p : Nat),
      (ringWriteLoop cap data src ws size).1 p =
        if p < size ∧ p < cap then src (ws + cap * ((size - 1 - p) / cap) + p)
        else data p := by
  intro size
  induction size using Nat.strong_induction_on with
  | _ size IH =>
    intro data ws p
    by_cases h : 0 < size
    · rw [ringWriteLoop_step cap data src ws size h (by omega)]
      rw [IH _ (by omega)]
      by_cases hpc : p < cap
      · by_cases hp1 : p < size - min size cap
        · -- a full chunk was taken: min size cap = cap
          have hmin : min size cap = cap := by omega
          rw [if_pos ⟨hp1, hpc⟩, if_pos ⟨by omega, hpc⟩]
          rw [hmin]
          have hge : cap ≤ size - 1 - p := by omega
          rw [Nat.div_eq_sub_div hcap hge]
          have harg : size - 1 - p - cap = size - cap - 1 - p := by omega
          rw [harg]
          ring_nf
        · rw [if_neg (by omega)]
          by_cases hp2 : p < min size cap
          · rw [if_pos hp2, if_pos ⟨by omega, hpc⟩]
            have hdz : (size - 1 - p) / cap = 0 := Nat.div_eq_of_lt (by omega)
            rw [hdz, Nat.mul_zero, Nat.add_zero]
          · have hy : ¬ (p < size ∧ p < cap) := by omega
            simp only [hp2, hy, if_false]
      · have hx : ¬ (p < size - min size cap ∧ p < cap) := by omega
        have hy : ¬ (p < size ∧ p < cap) := by omega
        have hz : ¬ (p < min size cap) := by omega
        simp only [hx, hy, hz, if_false]
    · have hz : size = 0 := by omega
      subst hz
      rw [ringWriteLoop_zero]
      rw [if_neg (by omega)]

end Baffa

namespace Baffa

/-- A power-of-two capacity is positive. -/
theorem Ring.cap_pos (r : Ring) (k : Nat) (hk : r.cap = 2 ^ k) : 0 < r.cap := by
  rw [hk]
  exact Nat.pos_pow_of_pos k (by norm_num)

/-- The masked index is below the capacity. -/
theorem Ring.maskIdx_lt (r : Ring) (k : Nat) (hk : r.cap = 2 ^ k) (x : Nat) :
    r.maskIdx x < r.cap := by
  rw [Ring.maskIdx_eq_mod r k hk]
  exact Nat.mod_lt _ (r.cap_pos k hk)

/-- Full characterization of `Ring::write` on an empty ring (`cursor = read`)
for `n ≤ capacity`: the cursor advances by `n`, the read cursor is unchanged,
and the storage holds the source bytes split at the physical end. -/
theorem ring_write_empty_spec (r : Ring) (src : Nat → Nat) (n k : Nat)
    (hk : r.cap = 2 ^ k) (he : r.cursor = r.read) (hn : n ≤ r.cap) :
    (r.write src n).cap = r.cap ∧
    (r.write src n).cursor = r.cursor + n ∧
    (r.write src n).read = r.read ∧
    ∀ p, (r.write src n).data p =
      if p < n - (r.cap - r.maskIdx r.cursor) then src (r.cap - r.maskIdx r.cursor + p)
      else if r.maskIdx r.cursor ≤ p ∧ p < r.maskIdx r.cursor + min (r.cap - r.maskIdx r.cursor) n then
        src (p - r.maskIdx r.cursor)
      else r.data p := by
  have hc0 : r.maskIdx r.cursor < r.cap := r.maskIdx_lt k hk r.cursor
  by_cases hcase : n ≤ r.cap - r.maskIdx r.cursor
  · simp only [Ring.write]
    rw [Nat.min_eq_right hcase, Nat.sub_self, ringWriteLoop_zero]
    simp only [Ring.advance, Ring.consume]
    rw [if_neg (show ¬ (r.cap < r.cursor + n - r.read) by omega)]
    refine ⟨rfl, rfl, rfl, ?_⟩
    intro p
    show (if r.maskIdx r.cursor ≤ p ∧ p < r.maskIdx r.cursor + n then src (p - r.maskIdx r.cursor)
      else r.data p) = _
    have hz : n - (r.cap - r.maskIdx r.cursor) = 0 := by omega
    rw [hz]
    simp only [Nat.not_lt_zero, if_false]
  · simp only [Ring.write]
    rw [Nat.min_eq_left (by omega)]
    rw [ringWriteLoop_small r.cap _ src (r.cap - r.maskIdx r.cursor)
      (n - (r.cap - r.maskIdx r.cursor)) (by omega) (by omega)]
    simp only [Ring.advance, Ring.consume]
    rw [if_neg (show ¬ (r.cap < r.cursor +
      (r.cap - r.maskIdx r.cursor + (n - (r.cap - r.maskIdx r.cursor))) - r.read) by omega)]
    refine ⟨rfl, ?_, rfl, ?_⟩
    · show r.cursor + (r.cap - r.maskIdx r.cursor + (n - (r.cap - r.maskIdx r.cursor))) = r.cursor + n
      omega
    · intro p
      rfl

end Baffa

namespace Baffa

/-- Effect of `Ring::read` at exactly the available count `n ≤ capacity`: destination
byte `i` is the physical byte at `(read + i) mod capacity`. -/
theorem ring_readInto_exact (r : Ring) (dst : Nat → Nat) (n k : Nat)
    (hk : r.cap = 2 ^ k) (hn : r.cursor = r.read + n) (hcap : n ≤ r.cap) :
    ∀ i < n, (r.readInto dst n).1 i = r.data ((r.read + i) % r.cap) := by
  intro i hi
  have hcpos : 0 < r.cap := r.cap_pos k hk
  have hidx : r.maskIdx r.read = r.read % r.cap := Ring.maskIdx_eq_mod r k hk r.read
  have hidxlt : r.read % r.cap < r.cap := Nat.mod_lt _ hcpos
  have hmodi : (r.read + i) % r.cap = (r.read % r.cap + i) % r.cap := by
    rw [Nat.add_mod, Nat.mod_eq_of_lt (show i < r.cap by omega)]
  simp only [Ring.readInto, Ring.consume, Ring.available, Ring.len, hidx]
  by_cases hsp : n ≤ r.cap - r.read % r.cap
  · rw [Nat.min_eq_right hsp, Nat.sub_self]
    rw [if_neg (show ¬ (0 < 0) by omega)]
    simp only
    rw [if_pos hi, hmodi, Nat.mod_eq_of_lt (show r.read % r.cap + i < r.cap by omega)]
  · rw [Nat.min_eq_left (show r.cap - r.read % r.cap ≤ n by omega)]
    rw [if_pos (show 0 < n - (r.cap - r.read % r.cap) by omega)]
    rw [show r.cursor - (r.read + (r.cap - r.read % r.cap)) = n - (r.cap - r.read % r.cap) by omega]
    rw [Nat.min_self]
    rw [if_pos (show 0 < n - (r.cap - r.read % r.cap) by omega)]
    simp only
    by_cases hfirst : i < r.cap - r.read % r.cap
    · rw [if_neg (show ¬ (r.cap - r.read % r.cap ≤ i ∧
        i < r.cap - r.read % r.cap + (n - (r.cap - r.read % r.cap))) by omega)]
      rw [if_pos hfirst]
      rw [hmodi, Nat.mod_eq_of_lt (show r.read % r.cap + i < r.cap by omega)]
    · rw [if_pos (show r.cap - r.read % r.cap ≤ i ∧
        i < r.cap - r.read % r.cap + (n - (r.cap - r.read % r.cap)) by omega)]
      rw [hmodi]
      rw [show r.read % r.cap + i = (i - (r.cap - r.read % r.cap)) + 1 * r.cap by omega]
      rw [Nat.add_mul_mod_self_right]
      rw [Nat.mod_eq_of_lt (show i - (r.cap - r.read % r.cap) < r.cap by omega)]

end Baffa

namespace Baffa

/-- C3 counterexample: the write/read round-trip fails on a non-empty buffer.
A Stack buffer of capacity 8 already holding the byte 7 (a reachable state),
after writing the byte 9 (`1 ≤ remaining()`), reads back 7 — reading is FIFO
from the front, not from the just-written region. -/
theorem c3_roundtrip_counterexample :
    let b0 : Buffer := ⟨8, fun _ => 0, 0⟩
    let b1 := (b0.writeSlice (fun _ => 7) 1).2
    1 ≤ b1.remaining ∧ ¬ (((b1.write (fun _ => 9) 1).readInto (fun _ => 0) 1).1 0 = 9) := by
  decide

/-- C3 amended: for every buffer (Stack or Ring) that is EMPTY (length
respectively available = 0 — for the Ring, cursor = read and a power-of-two
capacity as the crate requires), writing any byte sequence of length
`n ≤ remaining()` and then immediately reading `n` bytes yields exactly the
original sequence, in order. -/
theorem c3_roundtrip_amended :
    (∀ (b : Buffer) (src dst : Nat → Nat) (n : Nat), b.len = 0 → n ≤ b.remaining →
      ∀ i < n, ((b.write src n).readInto dst n).1 i = src i) ∧
    (∀ (r : Ring) (src dst : Nat → Nat) (n k : Nat), r.cap = 2 ^ k → r.available = 0 →
      r.cursor = r.read → n ≤ r.remaining →
      ∀ i < n, ((r.write src n).readInto dst n).1 i = src i) := by
  constructor
  · intro b src dst n hc hn i hi
    show (if i < n then (b.write src n).data i else dst i) = src i
    rw [if_pos hi]
    unfold Buffer.write Buffer.advance
    simp only
    unfold Buffer.len at hc
    rw [if_pos (show b.cursor ≤ i ∧ i < b.cursor + n by omega)]
    rw [hc, Nat.sub_zero]
  · intro r src dst n k hk hav he hn i hi
    have hn' : n ≤ r.cap := hn
    obtain ⟨hWcap, hWcursor, hWread, hWdata⟩ := ring_write_empty_spec r src n k hk he hn'
    have hc0 : r.maskIdx r.cursor < r.cap := r.maskIdx_lt k hk r.cursor
    have hWk : (r.write src n).cap = 2 ^ k := by rw [hWcap, hk]
    have hWn : (r.write src n).cursor = (r.write src n).read + n := by
      rw [hWcursor, hWread, he]
    have hWcap' : n ≤ (r.write src n).cap := by rw [hWcap]; exact hn'
    rw [ring_readInto_exact (r.write src n) dst n k hWk hWn hWcap' i hi]
    rw [hWread, hWdata]
    -- express the physical position read back
    have hmaskread : r.maskIdx r.cursor = r.read % r.cap := by
      rw [Ring.maskIdx_eq_mod r k hk, he]
    by_cases hwrap : r.read % r.cap + i < r.cap
    · have hpos : (r.read + i) % r.cap = r.read % r.cap + i := by
        rw [Nat.add_mod, Nat.mod_eq_of_lt (show i < r.cap by omega),
          Nat.mod_eq_of_lt hwrap]
      rw [hWcap, hpos]
      rw [if_neg (show ¬ (r.read % r.cap + i < n - (r.cap - r.maskIdx r.cursor)) by omega)]
      rw [if_pos (show r.maskIdx r.cursor ≤ r.read % r.cap + i ∧
        r.read % r.cap + i < r.maskIdx r.cursor + min (r.cap - r.maskIdx r.cursor) n by
          constructor
          · omega
          · rw [hmaskread]
            rcases Nat.le_total (r.cap - r.read % r.cap) n with h1 | h1
            · rw [Nat.min_eq_left (by omega)]
              omega
            · rw [Nat.min_eq_right (by omega)]
              omega)]
      rw [hmaskread]
      congr 1
      omega
    · have hreadlt : r.read % r.cap < r.cap := Nat.mod_lt _ (r.cap_pos k hk)
      have hneg : (r.read + i) % r.cap = r.read % r.cap + i - r.cap := by
        rw [Nat.add_mod, Nat.mod_eq_of_lt (show i < r.cap by omega)]
        rw [Nat.mod_eq_sub_mod (show r.cap ≤ r.read % r.cap + i by omega)]
        exact Nat.mod_eq_of_lt (show r.read % r.cap + i - r.cap < r.cap by omega)
      rw [hWcap, hneg]
      rw [if_pos (show r.read % r.cap + i - r.cap < n - (r.cap - r.maskIdx r.cursor) by
        rw [hmaskread]; omega)]
      rw [hmaskread]
      congr 1
      omega

/-- Witness for C3 amended: concrete round-trips on a Stack buffer and on a
Ring whose write wraps around the physical end (cursor = read = 6, cap 4). -/
theorem c3_roundtrip_amended_witness :
    (((⟨8, fun _ => 0, 0⟩ : Buffer).write (fun j => j + 10) 3).readInto (fun _ => 0) 3).1 1 = 11 ∧
    (((⟨4, fun _ => 9, 6, 6⟩ : Ring).write (fun j => j + 20) 3).readInto (fun _ => 0) 3).1 2 = 22 :=
  ⟨c3_roundtrip_amended.1 ⟨8, fun _ => 0, 0⟩ (fun j => j + 10) (fun _ => 0) 3 rfl (by decide) 1
     (by decide),
   c3_roundtrip_amended.2 ⟨4, fun _ => 9, 6, 6⟩ (fun j => j + 20) (fun _ => 0) 3 2 (by decide)
     (by decide) rfl (by decide) 2 (by decide)⟩

end Baffa

namespace Baffa

/-- One buffer operation of the Stack engine, as invoked through the traits. -/
inductive StackOp where
  | write (src : Nat → Nat) (size : Nat)
  | advance (step : Nat)
  | consume (step : Nat)
  | readInto (dst : Nat → Nat) (size : Nat)

/-- Apply one Stack operation. -/
def stackApply (b : Buffer) : StackOp → Buffer
  | .write src size => b.write src size
  | .advance step => b.advance step
  | .consume step => b.consume step
  | .readInto dst size => (b.readInto dst size).2

/-- The caller contract of one Stack operation: writes and advances stay
within `remaining()`, consumes and reads within the length. -/
def stackOk (b : Buffer) : StackOp → Prop
  | .write _ size => size ≤ b.remaining
  | .advance step => step ≤ b.remaining
  | .consume step => step ≤ b.len
  | .readInto _ size => size ≤ b.available

/-- Run a sequence of Stack operations. -/
def stackRun (b : Buffer) : List StackOp → Buffer
  | [] => b
  | op :: ops => stackRun (stackApply b op) ops

/-- Every step of the sequence respects the contract in the state where it
executes. -/
def stackOkSeq (b : Buffer) : List StackOp → Prop
  | [] => True
  | op :: ops => stackOk b op ∧ stackOkSeq (stackApply b op) ops

/-- One buffer operation of the Ring engine. -/
inductive RingOp where
  | write (src : Nat → Nat) (size : Nat)
  | advance (step : Nat)
  | consume (step : Nat)
  | readInto (dst : Nat → Nat) (size : Nat)

/-- Apply one Ring operation. -/
def ringApply (r : Ring) : RingOp → Ring
  | .write src size => r.write src size
  | .advance step => r.advance step
  | .consume step => r.consume step
  | .readInto dst size => (r.readInto dst size).2

/-- The caller contract of one Ring operation: consumes and reads stay within
`available()`; writes and advances are unrestricted (the ring never rejects
a write, however large). -/
def ringOk (r : Ring) : RingOp → Prop
  | .write _ _ => True
  | .advance _ => True
  | .consume step => step ≤ r.available
  | .readInto _ size => size ≤ r.available

/-- Run a sequence of Ring operations. -/
def ringRun (r : Ring) : List RingOp → Ring
  | [] => r
  | op :: ops => ringRun (ringApply r op) ops

/-- Every step of the sequence respects the contract in the state where it
executes. -/
def ringOkSeq (r : Ring) : List RingOp → Prop
  | [] => True
  | op :: ops => ringOk r op ∧ ringOkSeq (ringApply r op) ops

/-- Embeds `Ring::consume` within availability preserves the cursor invariant. -/
theorem ring_consume_inv (r : Ring) (step : Nat) (h1 : r.read ≤ r.cursor)
    (h2 : r.cursor - r.read ≤ r.cap) (hstep : step ≤ r.available) :
    (r.consume step).read ≤ (r.consume step).cursor ∧
    (r.consume step).cursor - (r.consume step).read ≤ (r.consume step).cap := by
  unfold Ring.available Ring.len at hstep
  unfold Ring.consume
  constructor
  · show r.read + step ≤ r.cursor
    omega
  · show r.cursor - (r.read + step) ≤ r.cap
    omega

/-- Embeds `Ring::advance` of any step preserves the cursor invariant: the excess
over the capacity is force-consumed. -/
theorem ring_advance_inv (r : Ring) (step : Nat) (h1 : r.read ≤ r.cursor)
    (h2 : r.cursor - r.read ≤ r.cap) :
    (r.advance step).read ≤ (r.advance step).cursor ∧
    (r.advance step).cursor - (r.advance step).read ≤ (r.advance step).cap := by
  unfold Ring.advance Ring.consume
  simp only
  by_cases hc : r.cap < r.cursor + step - r.read
  · rw [if_pos hc]
    constructor
    · show r.read + (r.cursor + step - r.read - r.cap) ≤ r.cursor + step
      omega
    · show r.cursor + step - (r.read + (r.cursor + step - r.read - r.cap)) ≤ r.cap
      omega
  · rw [if_neg hc]
    constructor
    · show r.read ≤ r.cursor + step
      omega
    · show r.cursor + step - r.read ≤ r.cap
      omega

/-- Embeds `Ring::write` of any size preserves the cursor invariant. -/
theorem ring_write_inv (r : Ring) (src : Nat → Nat) (size : Nat)
    (h1 : r.read ≤ r.cursor) (h2 : r.cursor - r.read ≤ r.cap) :
    (r.write src size).read ≤ (r.write src size).cursor ∧
    (r.write src size).cursor - (r.write src size).read ≤ (r.write src size).cap := by
  unfold Ring.write
  simp only
  exact ring_advance_inv _ _ h1 h2

/-- Embeds `Ring::read` within availability preserves the cursor invariant. -/
theorem ring_readInto_inv (r : Ring) (dst : Nat → Nat) (size : Nat)
    (h1 : r.read ≤ r.cursor) (h2 : r.cursor - r.read ≤ r.cap)
    (hsize : size ≤ r.available) :
    (r.readInto dst size).2.read ≤ (r.readInto dst size).2.cursor ∧
    (r.readInto dst size).2.cursor - (r.readInto dst size).2.read ≤ (r.readInto dst size).2.cap := by
  unfold Ring.available Ring.len at hsize
  unfold Ring.readInto
  simp only
  have hspan : min (r.cap - r.maskIdx r.read) size ≤ size := Nat.min_le_right _ _
  by_cases hc1 : 0 < size - min (r.cap - r.maskIdx r.read) size
  · rw [if_pos hc1]
    by_cases hc2 : 0 < min (size - min (r.cap - r.maskIdx r.read) size)
        ((r.consume (min (r.cap - r.maskIdx r.read) size)).available)
    · rw [if_pos hc2]
      show ((r.consume _).consume _).read ≤ _ ∧ _
      have hmid := ring_consume_inv r (min (r.cap - r.maskIdx r.read) size) h1 h2
        (by unfold Ring.available Ring.len; omega)
      exact ring_consume_inv _ _ hmid.1 hmid.2 (Nat.min_le_right _ _)
    · rw [if_neg hc2]
      exact ring_consume_inv r _ h1 h2 (by unfold Ring.available Ring.len; omega)
  · rw [if_neg hc1]
    exact ring_consume_inv r _ h1 h2 (by unfold Ring.available Ring.len; omega)

end Baffa

namespace Baffa

/-- Each contract-respecting Stack operation keeps `len ≤ capacity`. -/
theorem stack_step_inv (b : Buffer) (op : StackOp) (h : b.cursor ≤ b.cap)
    (hok : stackOk b op) :
    (stackApply b op).cursor ≤ (stackApply b op).cap := by
  cases op with
  | write src size =>
    unfold stackOk Buffer.remaining at hok
    show b.cursor + size ≤ b.cap
    omega
  | advance step =>
    unfold stackOk Buffer.remaining at hok
    show b.cursor + step ≤ b.cap
    omega
  | consume step =>
    show (b.consume step).cursor ≤ (b.consume step).cap
    unfold Buffer.consume
    by_cases h0 : step = 0
    · rw [if_pos h0]
      exact h
    · rw [if_neg h0]
      simp only
      by_cases hrem : b.cursor - step ≠ 0
      · rw [if_pos hrem]
        show b.cursor - step ≤ b.cap
        omega
      · rw [if_neg hrem]
        show b.cursor - step ≤ b.cap
        omega
  | readInto dst size =>
    show (b.consume size).cursor ≤ (b.consume size).cap
    unfold Buffer.consume
    by_cases h0 : size = 0
    · rw [if_pos h0]
      exact h
    · rw [if_neg h0]
      simp only
      by_cases hrem : b.cursor - size ≠ 0
      · rw [if_pos hrem]
        show b.cursor - size ≤ b.cap
        omega
      · rw [if_neg hrem]
        show b.cursor - size ≤ b.cap
        omega

/-- Each contract-respecting Ring operation preserves the cursor invariant. -/
theorem ring_step_inv (r : Ring) (op : RingOp) (h1 : r.read ≤ r.cursor)
    (h2 : r.cursor - r.read ≤ r.cap) (hok : ringOk r op) :
    (ringApply r op).read ≤ (ringApply r op).cursor ∧
    (ringApply r op).cursor - (ringApply r op).read ≤ (ringApply r op).cap := by
  cases op with
  | write src size => exact ring_write_inv r src size h1 h2
  | advance step => exact ring_advance_inv r step h1 h2
  | consume step => exact ring_consume_inv r step h1 h2 hok
  | readInto dst size => exact ring_readInto_inv r dst size h1 h2 hok

/-- C4: the Stack buffer keeps `len() ≤ capacity()` after every sequence of
contract-respecting operations (writes/advances at most `remaining()`,
consumes/reads at most the length), and the Ring keeps
`available() ≤ capacity()` after every sequence whose consumes/reads stay
within `available()` — with writes and advances of ANY size, including
writes exceeding the free space. -/
theorem c4_capacity_invariant :
    (∀ (b0 : Buffer) (ops : List StackOp), b0.len ≤ b0.cap → stackOkSeq b0 ops →
      (stackRun b0 ops).len ≤ (stackRun b0 ops).cap) ∧
    (∀ (r0 : Ring) (ops : List RingOp), r0.read ≤ r0.cursor → r0.available ≤ r0.cap →
      ringOkSeq r0 ops →
      (ringRun r0 ops).available ≤ (ringRun r0 ops).cap) := by
  constructor
  · intro b0 ops
    induction ops generalizing b0 with
    | nil =>
      intro h _
      exact h
    | cons op ops IH =>
      intro h hseq
      exact IH (stackApply b0 op) (stack_step_inv b0 op h hseq.1) hseq.2
  · intro r0 ops
    induction ops generalizing r0 with
    | nil =>
      intro _ h _
      exact h
    | cons op ops IH =>
      intro h1 h2 hseq
      obtain ⟨h1', h2'⟩ := ring_step_inv r0 op h1 h2 hseq.1
      exact IH (ringApply r0 op) h1' h2' hseq.2

/-- Witness for C4: a concrete Stack run (write, advance, consume) and a
concrete Ring run containing an oversized write (9 bytes into capacity 4). -/
theorem c4_capacity_invariant_witness :
    (stackRun ⟨8, fun _ => 0, 0⟩
      [StackOp.write (fun _ => 1) 3, StackOp.advance 2, StackOp.consume 4]).len ≤
      (stackRun ⟨8, fun _ => 0, 0⟩
        [StackOp.write (fun _ => 1) 3, StackOp.advance 2, StackOp.consume 4]).cap ∧
    (ringRun ⟨4, fun _ => 0, 0, 0⟩ [RingOp.write (fun _ => 1) 9]).available ≤
      (ringRun ⟨4, fun _ => 0, 0, 0⟩ [RingOp.write (fun _ => 1) 9]).cap :=
  ⟨c4_capacity_invariant.1 ⟨8, fun _ => 0, 0⟩
      [StackOp.write (fun _ => 1) 3, StackOp.advance 2, StackOp.consume 4]
      (by decide)
      ⟨by simp only [stackOk]; decide, by simp only [stackOk, stackApply]; decide,
       by simp only [stackOk, stackApply]; decide, trivial⟩,
   c4_capacity_invariant.2 ⟨4, fun _ => 0, 0, 0⟩ [RingOp.write (fun _ => 1) 9]
      (by decide) (by decide) ⟨trivial, trivial⟩⟩

end Baffa

namespace Baffa

/-- Effect of `Ring::write` with `size ≥ capacity` (any start state with
`read ≤ cursor`): the write cursor advances by `size`, the read cursor is
forced to `cursor + size - capacity`, and for every source index `j` in the
final window `[size - capacity, size)` the physical byte at
`(cursor + j) mod capacity` is `src j`. -/
theorem ring_write_oversized_spec (r : Ring) (src : Nat → Nat) (size k : Nat)
    (hk : r.cap = 2 ^ k) (hrw : r.read ≤ r.cursor) (hsz : r.cap ≤ size) :
    (r.write src size).cap = r.cap ∧
    (r.write src size).cursor = r.cursor + size ∧
    (r.write src size).read = r.cursor + size - r.cap ∧
    ∀ j, size - r.cap ≤ j → j < size →
      (r.write src size).data ((r.cursor + j) % r.cap) = src j := by
  have hcpos : 0 < r.cap := r.cap_pos k hk
  have hc0 : r.maskIdx r.cursor < r.cap := r.maskIdx_lt k hk r.cursor
  have hc0m : r.maskIdx r.cursor = r.cursor % r.cap := Ring.maskIdx_eq_mod r k hk r.cursor
  simp only [Ring.write]
  rw [Nat.min_eq_left (by omega)]
  rw [ringWriteLoop_snd r.cap hcpos src]
  rw [show r.cap - r.maskIdx r.cursor + (size - (r.cap - r.maskIdx r.cursor)) = size from by omega]
  have key : ∀ j, size - r.cap ≤ j → j < size →
      (ringWriteLoop r.cap
        (fun i => if r.maskIdx r.cursor ≤ i ∧ i < r.maskIdx r.cursor + (r.cap - r.maskIdx r.cursor)
          then src (i - r.maskIdx r.cursor) else r.data i)
        src (r.cap - r.maskIdx r.cursor) (size - (r.cap - r.maskIdx r.cursor))).1
        ((r.cursor + j) % r.cap) = src j := by
    intro j hj1 hj2
    rw [ringWriteLoop_fst r.cap hcpos src]
    have hp : (r.cursor + j) % r.cap < r.cap := Nat.mod_lt _ hcpos
    have hmodeq : (r.maskIdx r.cursor + j) % r.cap = (r.cursor + j) % r.cap := by
      rw [hc0m]
      exact Nat.mod_add_mod r.cursor r.cap j
    have hdm : r.cap * ((r.maskIdx r.cursor + j) / r.cap) + (r.cursor + j) % r.cap =
        r.maskIdx r.cursor + j := by
      rw [← hmodeq]
      exact Nat.div_add_mod (r.maskIdx r.cursor + j) r.cap
    by_cases hq : (r.maskIdx r.cursor + j) / r.cap = 0
    · rw [hq, Nat.mul_zero, Nat.zero_add] at hdm
      rw [if_neg (show ¬ ((r.cursor + j) % r.cap < size - (r.cap - r.maskIdx r.cursor) ∧
        (r.cursor + j) % r.cap < r.cap) by omega)]
      show (if r.maskIdx r.cursor ≤ (r.cursor + j) % r.cap ∧
          (r.cursor + j) % r.cap < r.maskIdx r.cursor + (r.cap - r.maskIdx r.cursor)
        then src ((r.cursor + j) % r.cap - r.maskIdx r.cursor)
        else r.data ((r.cursor + j) % r.cap)) = src j
      rw [if_pos (show r.maskIdx r.cursor ≤ (r.cursor + j) % r.cap ∧
        (r.cursor + j) % r.cap < r.maskIdx r.cursor + (r.cap - r.maskIdx r.cursor) by omega)]
      congr 1
      omega
    · obtain ⟨x, hx⟩ : ∃ x, (r.maskIdx r.cursor + j) / r.cap = x + 1 :=
        ⟨(r.maskIdx r.cursor + j) / r.cap - 1,
         (Nat.succ_pred_eq_of_pos (Nat.pos_of_ne_zero hq)).symm⟩
      rw [hx] at hdm
      have hms : r.cap * (x + 1) = r.cap * x + r.cap := Nat.mul_succ r.cap x
      rw [if_pos (show (r.cursor + j) % r.cap < size - (r.cap - r.maskIdx r.cursor) ∧
        (r.cursor + j) % r.cap < r.cap by omega)]
      have hdiv : (size - (r.cap - r.maskIdx r.cursor) - 1 - (r.cursor + j) % r.cap) / r.cap = x := by
        have hxc : x * r.cap = r.cap * x := Nat.mul_comm x r.cap
        have hxc1 : (x + 1) * r.cap = r.cap * (x + 1) := Nat.mul_comm (x + 1) r.cap
        exact Nat.div_eq_of_lt_le (by omega) (by omega)
      rw [hdiv]
      congr 1
      omega
  by_cases hadv : r.cap < r.cursor + size - r.read
  · simp only [Ring.advance, Ring.consume]
    rw [if_pos (show ({ r with
        data := (ringWriteLoop r.cap
          (fun i => if r.maskIdx r.cursor ≤ i ∧
              i < r.maskIdx r.cursor + (r.cap - r.maskIdx r.cursor)
            then src (i - r.maskIdx r.cursor) else r.data i)
          src (r.cap - r.maskIdx r.cursor) (size - (r.cap - r.maskIdx r.cursor))).1,
        cursor := r.cursor + size } : Ring).cap <
        r.cursor + size - r.read from hadv)]
    exact ⟨rfl, rfl, by show r.read + (r.cursor + size - r.read - r.cap) = _; omega, key⟩
  · simp only [Ring.advance, Ring.consume]
    rw [if_neg (show ¬ (({ r with
        data := (ringWriteLoop r.cap
          (fun i => if r.maskIdx r.cursor ≤ i ∧
              i < r.maskIdx r.cursor + (r.cap - r.maskIdx r.cursor)
            then src (i - r.maskIdx r.cursor) else r.data i)
          src (r.cap - r.maskIdx r.cursor) (size - (r.cap - r.maskIdx r.cursor))).1,
        cursor := r.cursor + size } : Ring).cap <
        r.cursor + size - r.read) from hadv)]
    exact ⟨rfl, rfl, by show r.read = r.cursor + size - r.cap; omega, key⟩

end Baffa

namespace Baffa

/-- The cursor-only `Ring::advance` never touches the storage. -/
theorem Ring.advance_data (r : Ring) (step : Nat) : (r.advance step).data = r.data := by
  unfold Ring.advance Ring.consume
  simp only
  split <;> rfl

/-- Embeds `Ring::write` of any size never writes outside the backing storage:
physical indices at or beyond the capacity are unchanged. -/
theorem ring_write_data_frame (r : Ring) (src : Nat → Nat) (size k : Nat)
    (hk : r.cap = 2 ^ k) :
    ∀ p, r.cap ≤ p → (r.write src size).data p = r.data p := by
  intro p hp
  have hcpos : 0 < r.cap := r.cap_pos k hk
  have hc0 : r.maskIdx r.cursor < r.cap := r.maskIdx_lt k hk r.cursor
  have hmle : min (r.cap - r.maskIdx r.cursor) size ≤ r.cap - r.maskIdx r.cursor :=
    Nat.min_le_left _ _
  simp only [Ring.write]
  rw [Ring.advance_data]
  show (ringWriteLoop r.cap _ src _ _).1 p = r.data p
  rw [ringWriteLoop_fst r.cap hcpos src]
  rw [if_neg (show ¬ (p < size - min (r.cap - r.maskIdx r.cursor) size ∧ p < r.cap) by omega)]
  show (if r.maskIdx r.cursor ≤ p ∧
      p < r.maskIdx r.cursor + min (r.cap - r.maskIdx r.cursor) size
    then src (p - r.maskIdx r.cursor) else r.data p) = r.data p
  rw [if_neg (show ¬ (r.maskIdx r.cursor ≤ p ∧
    p < r.maskIdx r.cursor + min (r.cap - r.maskIdx r.cursor) size) by omega)]

/-- C5: for every Ring of power-of-two capacity C in any reachable state
(`read ≤ cursor`) and every source of `size ≥ C` bytes, after
`write(ptr, size)` `available() = C`, and reading C bytes yields exactly the
last C bytes of the source in order — everything older is overwritten. -/
theorem c5_ring_oversized_write (r : Ring) (src dst : Nat → Nat) (size k : Nat)
    (hk : r.cap = 2 ^ k) (hrw : r.read ≤ r.cursor) (hsz : r.cap ≤ size) :
    (r.write src size).available = r.cap ∧
    ∀ i < r.cap, ((r.write src size).readInto dst r.cap).1 i = src (size - r.cap + i) := by
  obtain ⟨hWcap, hWcursor, hWread, hWdata⟩ := ring_write_oversized_spec r src size k hk hrw hsz
  have havail : (r.write src size).available = r.cap := by
    unfold Ring.available Ring.len
    rw [hWcursor, hWread]
    omega
  refine ⟨havail, ?_⟩
  intro i hi
  have hWk : (r.write src size).cap = 2 ^ k := by rw [hWcap, hk]
  have hWn : (r.write src size).cursor = (r.write src size).read + r.cap := by
    rw [hWcursor, hWread]
    omega
  have hWc : r.cap ≤ (r.write src size).cap := by rw [hWcap]
  rw [ring_readInto_exact (r.write src size) dst r.cap k hWk hWn
    (by rw [hWcap] : r.cap ≤ (r.write src size).cap) i hi]
  rw [hWread, hWcap]
  rw [show r.cursor + size - r.cap + i = r.cursor + (size - r.cap + i) by omega]
  exact hWdata (size - r.cap + i) (by omega) (by omega)

end Baffa

namespace Baffa

/-- Witness for C5: capacity 4 (k = 2), write cursor 2, read cursor 1,
writing 6 bytes `30..35`; `available()` becomes 4 and reading 4 bytes gives
the last four source bytes (`32,33,34,35`). -/
theorem c5_ring_oversized_write_witness :
    ((⟨4, fun _ => 0, 2, 1⟩ : Ring).write (fun j => j + 30) 6).available = 4 ∧
    (((⟨4, fun _ => 0, 2, 1⟩ : Ring).write (fun j => j + 30) 6).readInto (fun _ => 0) 4).1 1 = 33 :=
  ⟨(c5_ring_oversized_write ⟨4, fun _ => 0, 2, 1⟩ (fun j => j + 30) (fun _ => 0) 6 2
      (by decide) (by decide) (by decide)).1,
   (c5_ring_oversized_write ⟨4, fun _ => 0, 2, 1⟩ (fun j => j + 30) (fun _ => 0) 6 2
      (by decide) (by decide) (by decide)).2 1 (by decide)⟩

/-- C7: `write_slice` with a source longer than `remaining()` writes exactly
`remaining()` bytes — the clamped prefix of the source — returns that count,
and never writes outside the backing storage. Stack: the prefix lands at
`[cursor, capacity)`, bytes below the cursor and beyond the capacity are
unchanged, and the buffer ends full. Ring: the call performs the raw write
of exactly the first `capacity` source bytes and indices beyond the
capacity are unchanged. -/
theorem c7_write_slice_clamp :
    (∀ (b : Buffer) (src : Nat → Nat) (srcLen : Nat), b.cursor ≤ b.cap →
      b.remaining < srcLen →
      (b.writeSlice src srcLen).1 = b.remaining ∧
      (b.writeSlice src srcLen).2.cursor = b.cap ∧
      (∀ i < b.remaining, (b.writeSlice src srcLen).2.data (b.cursor + i) = src i) ∧
      (∀ p, p < b.cursor ∨ b.cap ≤ p → (b.writeSlice src srcLen).2.data p = b.data p)) ∧
    (∀ (r : Ring) (src : Nat → Nat) (srcLen k : Nat), r.cap = 2 ^ k →
      r.remaining < srcLen →
      (r.writeSlice src srcLen).1 = r.remaining ∧
      (r.writeSlice src srcLen).2 = r.write src r.cap ∧
      (∀ p, r.cap ≤ p → (r.writeSlice src srcLen).2.data p = r.data p)) := by
  constructor
  · intro b src srcLen hbc hlt
    unfold Buffer.writeSlice
    unfold Buffer.remaining at *
    simp only
    rw [Nat.min_eq_right (by omega)]
    by_cases h0 : 0 < b.cap - b.cursor
    · rw [if_pos h0]
      refine ⟨rfl, ?_, ?_, ?_⟩
      · show b.cursor + (b.cap - b.cursor) = b.cap
        omega
      · intro i hi
        show (b.write src (b.cap - b.cursor)).data (b.cursor + i) = src i
        unfold Buffer.write Buffer.advance
        simp only
        rw [if_pos (show b.cursor ≤ b.cursor + i ∧
          b.cursor + i < b.cursor + (b.cap - b.cursor) by omega)]
        congr 1
        omega
      · intro p hp
        show (b.write src (b.cap - b.cursor)).data p = b.data p
        unfold Buffer.write Buffer.advance
        simp only
        rw [if_neg (show ¬ (b.cursor ≤ p ∧ p < b.cursor + (b.cap - b.cursor)) by omega)]
    · rw [if_neg h0]
      refine ⟨rfl, by show b.cursor = b.cap; omega, ?_, fun p _ => rfl⟩
      intro i hi
      omega
  · intro r src srcLen k hk hlt
    unfold Ring.writeSlice
    unfold Ring.remaining at *
    simp only
    rw [Nat.min_eq_right (by omega)]
    rw [if_pos (r.cap_pos k hk)]
    exact ⟨rfl, rfl, ring_write_data_frame r src r.cap k hk⟩

/-- Witness for C7: a capacity-8 Stack with 6 written bytes receiving a
5-byte source (clamped to 2), and a capacity-4 Ring receiving a 9-byte
source (clamped to 4, storage index 11 untouched). -/
theorem c7_write_slice_clamp_witness :
    ((⟨8, fun _ => 0, 6⟩ : Buffer).writeSlice (fun j => j + 40) 5).1 = 2 ∧
    ((⟨8, fun _ => 0, 6⟩ : Buffer).writeSlice (fun j => j + 40) 5).2.data 7 = 41 ∧
    ((⟨4, fun _ => 3, 2, 1⟩ : Ring).writeSlice (fun j => j + 50) 9).1 = 4 ∧
    ((⟨4, fun _ => 3, 2, 1⟩ : Ring).writeSlice (fun j => j + 50) 9).2.data 11 = 3 :=
  ⟨(c7_write_slice_clamp.1 ⟨8, fun _ => 0, 6⟩ (fun j => j + 40) 5 (by decide) (by decide)).1,
   (c7_write_slice_clamp.1 ⟨8, fun _ => 0, 6⟩ (fun j => j + 40) 5 (by decide) (by decide)).2.2.1 1
     (by decide),
   (c7_write_slice_clamp.2 ⟨4, fun _ => 3, 2, 1⟩ (fun j => j + 50) 9 2 (by decide) (by decide)).1,
   (c7_write_slice_clamp.2 ⟨4, fun _ => 3, 2, 1⟩ (fun j => j + 50) 9 2 (by decide) (by decide)).2.2 11
     (by decide)⟩

end Baffa
